import Mathlib

/-!
Shallow embedding of the directory-size scanning core of
`disk-usage-report.py` (shared, with inessential variations, by
`useful_scripts/disk_usage_report.py` and `fs-search.py`).

Representation choices:
* An absolute, symlink-free canonical path is represented by its list of
  components (`/tmp/t` is `["tmp", "t"]`).  The scripts only compare and
  split paths after sending them through
  `os.path.realpath(os.path.abspath(·))`; the filesystem model below has
  no symlinks, so `realpath` is the identity on canonical paths and the
  string operations of the source (`startswith(prefix + os.sep)`,
  `os.path.relpath`, `os.path.join`) become list operations on components.
* `os.path.realpath(os.path.abspath(p))` applied to a raw command-line
  string is modelled by an abstract resolution function
  `resolve : String → Path` (it is an OS call, not code of the repository).
* The filesystem visible to `os.walk`/`os.lstat` is modelled by the
  inductive tree `FsDir`: for each directory the `lstat` outcome of every
  listed file (`err` = OSError, `nonreg` = not `S_ISREG`, `reg size`) and
  the named subdirectories, in listing order.
* The `heapq` min-heap of `(size, path)` tuples is modelled by the list of
  its elements kept sorted by size; `heap[0][0]` is the head's size.  The
  internal array layout of `heapq` and the path component of the tuple
  order are not observable in the properties below (which record among
  equal sizes is evicted is unspecified in both the code's documentation
  and the spec).
* Writing the `[WARN]` line to stderr is modelled by accumulating the
  offending root in a warning stream returned next to the report.
-/

namespace DiskUsage

/-- A canonical absolute path, as its list of components. -/
abbrev Path := List String

/-- Model of `normalize_paths` (disk-usage-report.py lines 68-77): skip
falsy (empty) strings, append the resolved form of every other path, in
order.  `resolve` stands for `os.path.realpath(os.path.abspath(·))`. -/
def normalize_paths (resolve : String → Path) (paths : List String) : List Path :=
  paths.foldl (fun out p => if p = "" then out else out ++ [resolve p]) []

/-- Model of `is_under` (lines 80-90): the path equals an entry of
`prefixes` or starts with `entry + os.sep`; on canonical component lists
both cases together are exactly `pre <+: path`. -/
def is_under (path : Path) (prefixes : List Path) : Bool :=
  prefixes.any (fun pre => pre.isPrefixOf path)

/-- Model of `dir_bucket` (lines 93-110), on canonical paths with
`dirpath` at or below `root` (the only calls the walker makes): the
`realpath` calls are the identity, `os.path.relpath dirpath root` drops
the root's components, and the join takes the first `maxDepth` of the
remaining ones. -/
def dir_bucket (root dirpath : Path) (maxDepth : Nat) : Path :=
  if dirpath = root then root
  else root ++ (dirpath.drop root.length).take maxDepth

/-- Insertion into the size-sorted list that models the heapq push; a new
record goes after existing records of equal size. -/
def insertSorted (heap : List (Nat × Path)) (item : Nat × Path) : List (Nat × Path) :=
  match heap with
  | [] => [item]
  | h :: t => if item.1 < h.1 then item :: h :: t else h :: insertSorted t item

/-- Model of `add_top_file` (lines 113-132).  The branches mirror the
source: ignore the offer when `limit <= 0` or `size <= 0`, push while the
heap holds fewer than `limit` records, and otherwise replace the current
minimum exactly when `size > heap[0][0]`. -/
def add_top_file (heap : List (Nat × Path)) (size : Nat) (path : Path) (limit : Nat) : List (Nat × Path) :=
  if limit ≤ 0 then heap
  else if size ≤ 0 then heap
  else if heap.length < limit then insertSorted heap (size, path)
  else
    match heap with
    | [] => heap
    | h :: t => if h.1 < size then insertSorted t (size, path) else heap

/-- Model of `ReportData` (lines 153-162).  `dir_sizes` is the Python
dict as an insertion-ordered association list with unique keys. -/
structure ReportData where
  dir_sizes : List (Path × Nat)
  top_files : List (Nat × Path)
  total_bytes : Nat
deriving DecidableEq

/-- Outcome of `os.lstat` on one directory entry: an OSError, an entry
that is not a regular file, or a regular file with its `st_size`. -/
inductive StatRes where
  | err : StatRes
  | nonreg : StatRes
  | reg : Nat → StatRes
deriving DecidableEq

instance : Inhabited StatRes := ⟨StatRes.err⟩

mutual
/-- A directory tree as `os.walk` enumerates it: the stat outcomes of the
files it lists and its named subdirectories, in listing order. -/
inductive FsDir where
  | node : List (String × StatRes) → FsForest → FsDir
/-- The sibling list of subdirectories of one directory. -/
inductive FsForest where
  | nil : FsForest
  | cons : String → FsDir → FsForest → FsForest
end

/-- The dict update `dir_sizes[bucket] = dir_sizes.get(bucket, 0) + size`:
an existing key keeps its position, a new key is appended. -/
def bump (m : List (Path × Nat)) (k : Path) (v : Nat) : List (Path × Nat) :=
  match m with
  | [] => [(k, v)]
  | (k', v') :: rest => if k = k' then (k', v' + v) :: rest else (k', v') :: bump rest k v

/-- Lookup in the association-list model of the dict. -/
def lookupVal (m : List (Path × Nat)) (key : Path) : Option Nat :=
  match m with
  | [] => none
  | (k, v) :: rest => if key = k then some v else lookupVal rest key

/-- The dict read `dir_sizes.get(key, 0)`. -/
def getD (m : List (Path × Nat)) (key : Path) : Nat :=
  (lookupVal m key).getD 0

/-- Sum of `dict.values()`. -/
def sumVals (m : List (Path × Nat)) : Nat :=
  (m.map Prod.snd).sum

/-- The per-directory file loop of `scan_roots` (lines 201-221): entries
whose lstat raised and non-regular entries are skipped; every regular
entry adds its size to the grand total and to the directory's bucket and
is offered to the heap. -/
def scanFiles (bucket dirpath : Path) (limit : Nat) (files : List (String × StatRes)) (st : ReportData) : ReportData :=
  files.foldl
    (fun st f =>
      match f.2 with
      | .err => st
      | .nonreg => st
      | .reg size =>
        { dir_sizes := bump st.dir_sizes bucket size
          top_files := add_top_file st.top_files size (dirpath ++ [f.1]) limit
          total_bytes := st.total_bytes + size })
    st

mutual
/-- The sequence of `(dirpath, filenames)` pairs the pruned
`os.walk(root, topdown=True)` of lines 190-195 delivers to the loop
body: a directory is yielded before its subtree, and the
`dirnames[:] = []` executed by the loop body on an excluded directory
prevents every descendant from being generated (the excluded directory
itself is still yielded; the loop body then skips it with `continue`). -/
def walkDirs (excl : List Path) (dirpath : Path) : FsDir → List (Path × List (String × StatRes))
  | .node files subs =>
    if is_under dirpath excl then [(dirpath, files)]
    else (dirpath, files) :: walkForest excl dirpath subs
  termination_by structural t => t
/-- Walk events of a sibling list, in listing order. -/
def walkForest (excl : List Path) (dirpath : Path) : FsForest → List (Path × List (String × StatRes))
  | .nil => []
  | .cons name tree rest =>
    walkDirs excl (dirpath ++ [name]) tree ++ walkForest excl dirpath rest
  termination_by structural f => f
end

/-- The body of the per-directory loop of `scan_roots` (lines 190-221):
an excluded directory contributes nothing (`continue`), any other
yielded directory has its files processed with its bucket. -/
def processDir (root : Path) (excl : List Path) (maxDepth limit : Nat) (st : ReportData) (p : Path × List (String × StatRes)) : ReportData :=
  if is_under p.1 excl then st
  else scanFiles (dir_bucket root p.1 maxDepth) p.1 limit p.2 st

/-- The walk of one root: the loop body folded over the walk events. -/
def scanDir (root : Path) (excl : List Path) (maxDepth limit : Nat) (dirpath : Path) (t : FsDir) (st : ReportData) : ReportData :=
  (walkDirs excl dirpath t).foldl (processDir root excl maxDepth limit) st

/-- The model of the filesystem root table consulted by `os.path.isdir`
and `os.walk`: the canonical paths that are existing directories, each
with its tree. -/
def fsLookup (fs : List (Path × FsDir)) (r : Path) : Option FsDir :=
  match fs with
  | [] => none
  | (p, t) :: rest => if r = p then some t else fsLookup rest r

/-- The per-root loop of `scan_roots` (lines 182-221): a root that is not
an existing directory produces a `[WARN]` line on stderr (modelled by the
second component) and is skipped; an existing root is walked starting
from itself. -/
def scanRootsLoop (fs : List (Path × FsDir)) (excl : List Path) (maxDepth limit : Nat) : List Path → ReportData × List Path → ReportData × List Path
  | [], acc => acc
  | r :: rest, (st, warns) =>
    match fsLookup fs r with
    | none => scanRootsLoop fs excl maxDepth limit rest (st, warns ++ [r])
    | some t => scanRootsLoop fs excl maxDepth limit rest (scanDir r excl maxDepth limit r t st, warns)

/-- Model of `scan_roots` (lines 167-223).  The first component is the
returned `ReportData`, the second the stream of `[WARN]` roots printed to
stderr.  Python's `set(...)` around the normalized excludes only removes
duplicates and forgets order, neither of which `is_under` observes, so
the exclude list is kept as `normalize_paths` produced it. -/
def scan_roots (fs : List (Path × FsDir)) (resolve : String → Path) (roots exclude : List String) (maxDepth limit : Nat) : ReportData × List Path :=
  scanRootsLoop fs (normalize_paths resolve exclude) maxDepth limit
    (normalize_paths resolve roots) (⟨[], [], 0⟩, [])

/-- Stable insertion keeping a list sorted descending by size. -/
def insertDesc (x : Nat × Path) : List (Nat × Path) → List (Nat × Path)
  | [] => [x]
  | y :: t => if y.1 < x.1 then x :: y :: t else y :: insertDesc x t

/-- Model of `sorted(report.top_files, key=lambda x: x[0], reverse=True)`
as used by `print_report` and `export_csv` for presentation. -/
def sortTopFiles (l : List (Nat × Path)) : List (Nat × Path) :=
  l.foldl (fun acc x => insertDesc x acc) []

/-! ### The walk as a fold over its visited file events -/

/-- One visited file event: the directory `os.walk` yielded, the entry
name, and its lstat outcome. -/
abbrev Entry := Path × String × StatRes

/-- The `(dirpath, name, stat)` events the loop body processes for one
yielded directory: none when the directory is excluded. -/
def dirEvents (excl : List Path) (p : Path × List (String × StatRes)) : List Entry :=
  if is_under p.1 excl then [] else p.2.map (fun f => (p.1, f))

/-- All file events of a sequence of walk events. -/
def visitedOf (excl : List Path) (ds : List (Path × List (String × StatRes))) : List Entry :=
  (ds.map (dirEvents excl)).flatten

/-- The file events the pruned walk of one root processes, in traversal
order. -/
def visitedFiles (excl : List Path) (dirpath : Path) (t : FsDir) : List Entry :=
  visitedOf excl (walkDirs excl dirpath t)

/-- Processing of one visited file event: the same update as `scanFiles`,
with the bucket recomputed from the event's directory. -/
def fileStep (root : Path) (maxDepth limit : Nat) (st : ReportData) (e : Entry) : ReportData :=
  match e.2.2 with
  | .err => st
  | .nonreg => st
  | .reg size =>
    { dir_sizes := bump st.dir_sizes (dir_bucket root e.1 maxDepth) size
      top_files := add_top_file st.top_files size (e.1 ++ [e.2.1]) limit
      total_bytes := st.total_bytes + size }

/-- The walk of one root as a fold over its visited file events. -/
def scanVisits (root : Path) (maxDepth limit : Nat) (vs : List Entry) (st : ReportData) : ReportData :=
  vs.foldl (fileStep root maxDepth limit) st

/-- Size contributed by one event to the grand total. -/
def entSize (e : Entry) : Nat :=
  match e.2.2 with
  | .reg s => s
  | _ => 0

/-- Total bytes of a list of events. -/
def totalOf (vs : List Entry) : Nat :=
  (vs.map entSize).sum

/-- Size contributed by one event to the bucket `key`. -/
def entBucketSize (root : Path) (maxDepth : Nat) (key : Path) (e : Entry) : Nat :=
  match e.2.2 with
  | .reg s => if key = dir_bucket root e.1 maxDepth then s else 0
  | _ => 0

/-- Bytes a list of events contributes to the bucket `key`. -/
def bucketSum (root : Path) (maxDepth : Nat) (key : Path) (vs : List Entry) : Nat :=
  (vs.map (entBucketSize root maxDepth key)).sum

/-- The `(size, fpath)` offers a list of events makes to the heap. -/
def offersOf (vs : List Entry) : List (Nat × Path) :=
  vs.filterMap (fun e =>
    match e.2.2 with
    | .reg s => some (s, e.1 ++ [e.2.1])
    | _ => none)

/-- Folding a sequence of offers through `add_top_file`. -/
def offerFold (limit : Nat) (offers : List (Nat × Path)) (heap : List (Nat × Path)) : List (Nat × Path) :=
  offers.foldl (fun h o => add_top_file h o.1 o.2 limit) heap

/-- The offers of positive size. -/
def posOffers (offers : List (Nat × Path)) : List (Nat × Path) :=
  offers.filter (fun o => decide (0 < o.1))

/-- The sizes of a list of records. -/
def sizesOf (l : List (Nat × Path)) : List Nat :=
  l.map Prod.fst

/-! ### Concrete filesystems used by the scenario claims -/

/-- The tree of spec scenario 1: `/tmp/t/a.txt` of 100 bytes and
`/tmp/t/sub/b.txt` of 200 bytes. -/
def scn1Tree : FsDir :=
  .node [("a.txt", .reg 100)] (.cons "sub" (.node [("b.txt", .reg 200)] .nil) .nil)

/-- The filesystem of scenario 1: only `/tmp/t` is an existing root. -/
def scn1Fs : List (Path × FsDir) := [(["tmp", "t"], scn1Tree)]

/-- Resolution of the raw strings the scenario can pass. -/
def scn1Resolve : String → Path := fun s => if s = "/tmp/t" then ["tmp", "t"] else [s]

/-- The report of scenario 1: roots `/tmp/t`, no excludes, max_depth 1,
top_k 10. -/
def scn1Report : ReportData :=
  (scan_roots scn1Fs scn1Resolve ["/tmp/t"] [] 1 10).1


/-- A one-file tree: /t/a.txt of 100 bytes. -/
def cexTree : FsDir := .node [("a.txt", .reg 100)] .nil

/-- The filesystem with the single root /t. -/
def cexFs : List (Path × FsDir) := [(["t"], cexTree)]

/-- Resolution used when /t is scanned and /t/a.txt excluded. -/
def cexResolve : String → Path :=
  fun s => if s = "/t" then ["t"] else ["t", "a.txt"]

/-- Resolution used when /tmp/t is scanned and /tmp/t/sub excluded. -/
def c4Resolve : String → Path :=
  fun s => if s = "/tmp/t" then ["tmp", "t"] else ["tmp", "t", "sub"]

/-- Two equal-size files listed in one order. -/
def c6Tree1 : FsDir := .node [("a", .reg 5), ("b", .reg 5)] .nil

/-- The same two files listed in the other order. -/
def c6Tree2 : FsDir := .node [("b", .reg 5), ("a", .reg 5)] .nil

/-- Invariant tying the heap to the offers seen so far: sorted by size,
exactly min(limit, number of positive offers) records, a sub-multiset of
the positive offers, every rejected positive offer no larger than
anything kept, and every size undercounted in the heap no larger than
anything kept. -/
structure HeapInv (limit : Nat) (seen heap : List (Nat × Path)) : Prop where
  sorted : heap.Pairwise (fun a b => a.1 ≤ b.1)
  len : heap.length = min limit (posOffers seen).length
  sub : (↑heap : Multiset (Nat × Path)) ≤ (↑(posOffers seen) : Multiset (Nat × Path))
  excl : ∀ o ∈ seen, 0 < o.1 → o ∉ heap → ∀ r ∈ heap, o.1 ≤ r.1
  missing : ∀ v : Nat,
    (↑(sizesOf heap) : Multiset Nat).count v < (↑(sizesOf (posOffers seen)) : Multiset Nat).count v →
    ∀ r ∈ heap, v ≤ r.1

/-! ### The walk equals the fold over its visited events -/

/-- Folding over a concatenation of event lists is folding twice. -/
theorem scanVisits_append (root : Path) (d k : Nat) (a b : List Entry) (st : ReportData) :
    scanVisits root d k (a ++ b) st = scanVisits root d k b (scanVisits root d k a st) := by
  simp [scanVisits]

/-- The file loop of one directory is the fold of `fileStep` over its
events. -/
theorem scanFiles_visits (root dp : Path) (d k : Nat) (files : List (String × StatRes)) :
    ∀ st : ReportData,
      scanFiles (dir_bucket root dp d) dp k files st =
        scanVisits root d k (files.map (fun f => (dp, f))) st := by
  induction files with
  | nil => intro st; rfl
  | cons f fs ih =>
    intro st
    rcases f with ⟨name, sr⟩
    cases sr <;>
      simpa [scanFiles, scanVisits, fileStep] using ih _

/-- The loop body on one yielded directory equals the fold of `fileStep`
over that directory's events. -/
theorem processDir_visits (root : Path) (excl : List Path) (d k : Nat)
    (st : ReportData) (p : Path × List (String × StatRes)) :
    processDir root excl d k st p = scanVisits root d k (dirEvents excl p) st := by
  rcases p with ⟨dp, files⟩
  by_cases h : is_under dp excl
  · simp [processDir, dirEvents, h, scanVisits]
  · simp only [processDir, dirEvents, if_neg h]
    exact scanFiles_visits root dp d k files st

/-- Event extraction distributes over the walk list. -/
theorem visitedOf_cons (excl : List Path) (p : Path × List (String × StatRes))
    (ds : List (Path × List (String × StatRes))) :
    visitedOf excl (p :: ds) = dirEvents excl p ++ visitedOf excl ds := by
  simp [visitedOf]

/-- The walk of one root is the fold of `fileStep` over its visited file
events. -/
theorem scanDir_visits (root : Path) (excl : List Path) (d k : Nat) (dp : Path) (t : FsDir) (st : ReportData) :
    scanDir root excl d k dp t st = scanVisits root d k (visitedFiles excl dp t) st := by
  unfold scanDir visitedFiles
  generalize walkDirs excl dp t = ds
  induction ds generalizing st with
  | nil => rfl
  | cons p ds ih =>
    rw [List.foldl_cons, ih, visitedOf_cons, scanVisits_append, processDir_visits]

/-- The scenario-1 report, expressed as the fold over the visited
events (the per-root loop reduces to walking the single root). -/
theorem scn1Report_visits :
    scn1Report =
      scanVisits ["tmp", "t"] 1 10 (visitedFiles [] ["tmp", "t"] scn1Tree) ⟨[], [], 0⟩ := by
  have h : scn1Report = scanDir ["tmp", "t"] [] 1 10 ["tmp", "t"] scn1Tree ⟨[], [], 0⟩ := by
    simp [scn1Report, scan_roots, scanRootsLoop, normalize_paths, fsLookup, scn1Fs, scn1Resolve]
  rw [h, scanDir_visits]

/-! ### C1 -/

/-- C1: the claim asserts `dir_sizes == {"/tmp/t": 300}` for scenario 1
with max_depth = 1, but `dir_bucket` puts `/tmp/t/sub/b.txt` into the
depth-1 bucket `/tmp/t/sub`, so the value at `/tmp/t` is 100, not 300. -/
theorem C1_cex :
    lookupVal scn1Report.dir_sizes ["tmp", "t"] = some 100 ∧
    lookupVal scn1Report.dir_sizes ["tmp", "t"] ≠ some 300 ∧
    lookupVal scn1Report.dir_sizes ["tmp", "t", "sub"] = some 200 := by
  rw [scn1Report_visits]
  refine ⟨rfl, ?_, rfl⟩
  decide

/-- C1 amended: scenario 1 (max_depth = 1, top_k = 10) returns
`dir_sizes = {/tmp/t: 100, /tmp/t/sub: 200}`, `total_bytes = 300`, and
`top_files` holding exactly the records (100, /tmp/t/a.txt) and
(200, /tmp/t/sub/b.txt), which the renderer's descending sort presents
as [(200, /tmp/t/sub/b.txt), (100, /tmp/t/a.txt)]. -/
theorem C1_thm :
    scn1Report =
      { dir_sizes := [(["tmp", "t"], 100), (["tmp", "t", "sub"], 200)]
        top_files := [(100, ["tmp", "t", "a.txt"]), (200, ["tmp", "t", "sub", "b.txt"])]
        total_bytes := 300 } ∧
    sortTopFiles scn1Report.top_files =
      [(200, ["tmp", "t", "sub", "b.txt"]), (100, ["tmp", "t", "a.txt"])] := by
  rw [scn1Report_visits]
  exact ⟨rfl, rfl⟩

/-! ### C5 -/

/-- C5: on the root itself the bucket is the root; on a directory
`root ++ rel` it is the root joined with the first
`min (rel.length) maxDepth` components of `rel`; the bucket never has
more than `maxDepth` components beyond its root and is an
ancestor-or-equal (component prefix) of the directory it maps. -/
theorem C5_thm (root rel : Path) (maxDepth : Nat) :
    dir_bucket root root maxDepth = root ∧
    dir_bucket root (root ++ rel) maxDepth = root ++ rel.take (min rel.length maxDepth) ∧
    ((dir_bucket root (root ++ rel) maxDepth).drop root.length).length ≤ maxDepth ∧
    dir_bucket root (root ++ rel) maxDepth <+: root ++ rel := by
  have htake : rel.take (min rel.length maxDepth) = rel.take maxDepth := by
    rcases Nat.le_total rel.length maxDepth with h | h
    · rw [Nat.min_eq_left h, List.take_of_length_le h, List.take_of_length_le (Nat.le_refl _)]
    · rw [Nat.min_eq_right h]
  have hroot : dir_bucket root root maxDepth = root := by
    simp [dir_bucket]
  refine ⟨hroot, ?_, ?_, ?_⟩
  · rcases rel with _ | ⟨a, rel'⟩
    · simpa using hroot
    · have hne : root ++ a :: rel' ≠ root := by
        intro h
        have := congrArg List.length h
        simp at this
      rw [dir_bucket, if_neg hne, List.drop_left, htake]
  · rcases rel with _ | ⟨a, rel'⟩
    · simp [hroot, List.drop_length]
    · have hne : root ++ a :: rel' ≠ root := by
        intro h
        have := congrArg List.length h
        simp at this
      rw [dir_bucket, if_neg hne, List.drop_left, List.drop_left, List.length_take]
      exact Nat.min_le_left _ _
  · rcases rel with _ | ⟨a, rel'⟩
    · simp [hroot]
    · have hne : root ++ a :: rel' ≠ root := by
        intro h
        have := congrArg List.length h
        simp at this
      rw [dir_bucket, if_neg hne, List.drop_left]
      exact ⟨(a :: rel').drop maxDepth, by rw [List.append_assoc, List.take_append_drop]⟩

/-! ### C7 -/

/-- Fold characterization of `normalize_paths` with an arbitrary
accumulator. -/
theorem normalize_paths_foldl (resolve : String → Path) (paths : List String) :
    ∀ acc : List Path,
      paths.foldl (fun out p => if p = "" then out else out ++ [resolve p]) acc =
        acc ++ (paths.filter (fun p => decide (¬ p = ""))).map resolve := by
  induction paths with
  | nil => intro acc; simp
  | cons p ps ih =>
    intro acc
    by_cases hp : p = ""
    · simp [hp, ih]
    · simp only [List.foldl_cons, if_neg hp, ih, List.filter_cons]
      simp [hp]

/-- C7: the claim says `normalize` removes duplicates; the code keeps
them — two copies of "/a" in, two identical resolved paths out. -/
theorem C7_cex :
    normalize_paths (fun s => [s]) ["/a", "/a"] = [["/a"], ["/a"]] ∧
    ¬ (normalize_paths (fun s => [s]) ["/a", "/a"]).Nodup := by
  constructor
  · rfl
  · decide

/-- Characterization of `normalize_paths`: the resolved forms of the
non-empty inputs, in order. -/
theorem normalize_paths_eq (resolve : String → Path) (paths : List String) :
    normalize_paths resolve paths =
      (paths.filter (fun p => decide (¬ p = ""))).map resolve := by
  simpa using normalize_paths_foldl resolve paths []

/-- C7 amended: `normalize_paths` returns, in input order, the resolved
form of every non-empty input string (empty strings silently dropped);
duplicates are retained, and the function is total (never raises; the
best-effort fallback of unresolvable paths lives inside `resolve`). -/
theorem C7_thm (resolve : String → Path) (paths : List String) :
    normalize_paths resolve paths =
      (paths.filter (fun p => decide (¬ p = ""))).map resolve :=
  normalize_paths_eq resolve paths

/-! ### C9 -/

/-- C9: on a full, size-sorted heap (head = current minimum), an offer
whose size equals that minimum leaves the heap completely unchanged:
eviction requires `size > heap[0][0]` strictly, so at a boundary tie the
record that arrived earlier stays. -/
theorem C9_thm (limit : Nat) (hl : 0 < limit) (s0 : Nat) (p0 : Path)
    (t : List (Nat × Path)) (p : Path)
    (hlen : ((s0, p0) :: t).length = limit)
    (_hsort : ((s0, p0) :: t).Pairwise (fun a b => a.1 ≤ b.1)) :
    add_top_file ((s0, p0) :: t) s0 p limit = (s0, p0) :: t := by
  have hlen' : t.length + 1 = limit := by simpa using hlen
  have h1 : ¬ limit ≤ 0 := by omega
  by_cases hs : s0 ≤ 0
  · simp [add_top_file, h1, hs]
  · simp only [add_top_file, if_neg h1, if_neg hs, List.length_cons]
    rw [if_neg (by omega)]
    simp

/-- Witness for C9 at a concrete full heap and boundary-tie offer. -/
theorem C9_wit :
    0 < 2 ∧
    ([((3 : Nat), (["a"] : Path)), (5, ["b"])].length = 2) ∧
    ([((3 : Nat), (["a"] : Path)), (5, ["b"])].Pairwise (fun a b => a.1 ≤ b.1)) ∧
    add_top_file [((3 : Nat), (["a"] : Path)), (5, ["b"])] 3 ["c"] 2 =
      [(3, ["a"]), (5, ["b"])] :=
  ⟨by decide, by decide, by decide,
    C9_thm 2 (by decide) 3 ["a"] [(5, ["b"])] ["c"] (by decide) (by decide)⟩

/-! ### Heap lemmas -/

/-- Inserting into the sorted heap is a permutation of consing. -/
theorem insertSorted_perm (heap : List (Nat × Path)) (item : Nat × Path) :
    (insertSorted heap item).Perm (item :: heap) := by
  induction heap with
  | nil => simp [insertSorted]
  | cons hd t ih =>
    simp only [insertSorted]
    by_cases hc : item.1 < hd.1
    · rw [if_pos hc]
    · rw [if_neg hc]
      exact (List.Perm.cons hd ih).trans (List.Perm.swap item hd t)

/-- Inserting grows the heap by one record. -/
theorem insertSorted_length (heap : List (Nat × Path)) (item : Nat × Path) :
    (insertSorted heap item).length = heap.length + 1 := by
  simpa using (insertSorted_perm heap item).length_eq

/-- Membership in the insertion result. -/
theorem mem_insertSorted (heap : List (Nat × Path)) (item x : Nat × Path) :
    x ∈ insertSorted heap item ↔ x = item ∨ x ∈ heap := by
  rw [(insertSorted_perm heap item).mem_iff]
  simp

/-- Insertion preserves sortedness by size. -/
theorem insertSorted_sorted (heap : List (Nat × Path)) (item : Nat × Path)
    (h : heap.Pairwise (fun a b => a.1 ≤ b.1)) :
    (insertSorted heap item).Pairwise (fun a b => a.1 ≤ b.1) := by
  induction heap with
  | nil => simp [insertSorted]
  | cons hd t ih =>
    rw [List.pairwise_cons] at h
    obtain ⟨hhd, ht⟩ := h
    simp only [insertSorted]
    by_cases hc : item.1 < hd.1
    · rw [if_pos hc]
      refine List.pairwise_cons.2 ⟨?_, List.pairwise_cons.2 ⟨hhd, ht⟩⟩
      intro b hb
      rcases List.mem_cons.1 hb with rfl | hbt
      · exact le_of_lt hc
      · exact le_trans (le_of_lt hc) (hhd b hbt)
    · rw [if_neg hc]
      refine List.pairwise_cons.2 ⟨?_, ih ht⟩
      intro b hb
      rcases (mem_insertSorted t item b).1 hb with rfl | hbt
      · exact le_of_not_lt hc
      · exact hhd b hbt

/-- The multiset of the insertion result. -/
theorem insertSorted_coe (heap : List (Nat × Path)) (item : Nat × Path) :
    (↑(insertSorted heap item) : Multiset (Nat × Path)) = item ::ₘ ↑heap := by
  rw [Multiset.cons_coe]
  exact Multiset.coe_eq_coe.2 (insertSorted_perm heap item)

/-- Appending one element at the end, as a multiset. -/
theorem coe_snoc {α : Type} (l : List α) (a : α) :
    (↑(l ++ [a]) : Multiset α) = a ::ₘ ↑l := by
  rw [Multiset.cons_coe]
  exact Multiset.coe_eq_coe.2 (List.perm_append_singleton a l)

/-- Positive offers of a sequence extended by a positive offer. -/
theorem posOffers_append_pos (seen : List (Nat × Path)) (o : Nat × Path) (h : 0 < o.1) :
    posOffers (seen ++ [o]) = posOffers seen ++ [o] := by
  simp [posOffers, List.filter_append, h]

/-- Positive offers of a sequence extended by a non-positive offer. -/
theorem posOffers_append_zero (seen : List (Nat × Path)) (o : Nat × Path) (h : ¬ 0 < o.1) :
    posOffers (seen ++ [o]) = posOffers seen := by
  simp [posOffers, List.filter_append, h]

/-- Sizes of a cons. -/
theorem sizesOf_cons (a : Nat × Path) (l : List (Nat × Path)) :
    sizesOf (a :: l) = a.1 :: sizesOf l := rfl

/-- Sizes of an appended record. -/
theorem sizesOf_snoc (l : List (Nat × Path)) (a : Nat × Path) :
    sizesOf (l ++ [a]) = sizesOf l ++ [a.1] := by
  simp [sizesOf]

/-- A counted sub-list of no smaller length is a permutation. -/
theorem perm_of_le_of_length (l1 l2 : List (Nat × Path))
    (h : (↑l1 : Multiset (Nat × Path)) ≤ (↑l2 : Multiset (Nat × Path)))
    (hl : l2.length ≤ l1.length) : l1.Perm l2 := by
  have := Multiset.eq_of_le_of_card_le h (by simpa using hl)
  exact Multiset.coe_eq_coe.1 this

/-- Unfolding add_top_file: a non-positive limit ignores the offer. -/
theorem add_top_file_limit0 (heap : List (Nat × Path)) (s : Nat) (q : Path) (limit : Nat)
    (h : limit ≤ 0) : add_top_file heap s q limit = heap := by
  simp [add_top_file, h]

/-- Unfolding add_top_file: a non-positive size is ignored. -/
theorem add_top_file_size0 (heap : List (Nat × Path)) (s : Nat) (q : Path) (limit : Nat)
    (h : s ≤ 0) : add_top_file heap s q limit = heap := by
  simp [add_top_file, h]

/-- Unfolding add_top_file: a heap below the limit pushes. -/
theorem add_top_file_push (heap : List (Nat × Path)) (s : Nat) (q : Path) (limit : Nat)
    (h1 : ¬ limit ≤ 0) (h2 : ¬ s ≤ 0) (h3 : heap.length < limit) :
    add_top_file heap s q limit = insertSorted heap (s, q) := by
  simp [add_top_file, h1, h2, h3]

/-- Unfolding add_top_file: a full heap replaces its minimum exactly when
the offer strictly exceeds it. -/
theorem add_top_file_full (s0 : Nat) (p0 : Path) (t : List (Nat × Path)) (s : Nat) (q : Path)
    (limit : Nat) (h1 : ¬ limit ≤ 0) (h2 : ¬ s ≤ 0) (h3 : ¬ t.length + 1 < limit) :
    add_top_file ((s0, p0) :: t) s q limit =
      if s0 < s then insertSorted t (s, q) else (s0, p0) :: t := by
  simp [add_top_file, h1, h2, h3]

/-- One offer preserves the heap invariant. -/
theorem heapInv_step (limit : Nat) (seen heap : List (Nat × Path)) (s : Nat) (q : Path)
    (h : HeapInv limit seen heap) :
    HeapInv limit (seen ++ [(s, q)]) (add_top_file heap s q limit) := by
  obtain ⟨hsorted, hlen, hsub, hexcl, hmiss⟩ := h
  by_cases hl0 : limit ≤ 0
  · have hheap : heap = [] := List.length_eq_zero.1 (by omega)
    subst hheap
    rw [add_top_file_limit0 _ _ _ _ hl0]
    refine ⟨List.Pairwise.nil, by simp; omega, ?_, ?_, ?_⟩
    · simp
    · intro o' ho' hp hn r hr
      exact absurd hr (List.not_mem_nil r)
    · intro v hv r hr
      exact absurd hr (List.not_mem_nil r)
  · by_cases hs0 : s ≤ 0
    · rw [add_top_file_size0 _ _ _ _ hs0]
      have hpos : posOffers (seen ++ [(s, q)]) = posOffers seen :=
        posOffers_append_zero seen (s, q) (by simpa using hs0)
      refine ⟨hsorted, by rw [hpos]; exact hlen, by rw [hpos]; exact hsub, ?_,
        by rw [hpos]; exact hmiss⟩
      intro o' ho' hp hn r hr
      rcases List.mem_append.1 ho' with ho' | ho'
      · exact hexcl o' ho' hp hn r hr
      · rw [List.mem_singleton] at ho'
        subst ho'
        exact absurd hp (by simpa using hs0)
    · have hs : 0 < s := by omega
      have hposA : posOffers (seen ++ [(s, q)]) = posOffers seen ++ [(s, q)] :=
        posOffers_append_pos seen (s, q) hs
      by_cases hfull : heap.length < limit
      · rw [add_top_file_push _ _ _ _ hl0 hs0 hfull]
        have hperm : heap.Perm (posOffers seen) :=
          perm_of_le_of_length _ _ hsub (by omega)
        refine ⟨insertSorted_sorted _ _ hsorted, ?_, ?_, ?_, ?_⟩
        · rw [insertSorted_length, hposA]
          simp only [List.length_append, List.length_singleton]
          omega
        · rw [insertSorted_coe, hposA, coe_snoc, Multiset.coe_eq_coe.2 hperm]
        · intro o' ho' hp hn r hr
          exfalso
          rcases List.mem_append.1 ho' with ho' | ho'
          · have h1 : o' ∈ posOffers seen := List.mem_filter.2 ⟨ho', by simpa using hp⟩
            have h2 : o' ∈ heap := hperm.mem_iff.2 h1
            exact hn ((mem_insertSorted _ _ _).2 (Or.inr h2))
          · rw [List.mem_singleton] at ho'
            subst ho'
            exact hn ((mem_insertSorted _ _ _).2 (Or.inl rfl))
        · intro v hv r hr
          exfalso
          have e1 : (↑(sizesOf (insertSorted heap (s, q))) : Multiset Nat) =
              s ::ₘ ↑(sizesOf heap) := by
            rw [Multiset.cons_coe]
            refine Multiset.coe_eq_coe.2 ?_
            simpa [sizesOf] using (insertSorted_perm heap (s, q)).map Prod.fst
          have e2 : (↑(sizesOf (posOffers (seen ++ [(s, q)]))) : Multiset Nat) =
              s ::ₘ ↑(sizesOf (posOffers seen)) := by
            rw [hposA, sizesOf_snoc]
            exact coe_snoc _ _
          have e3 : (↑(sizesOf heap) : Multiset Nat) = ↑(sizesOf (posOffers seen)) := by
            refine Multiset.coe_eq_coe.2 ?_
            simpa [sizesOf] using hperm.map Prod.fst
          rw [e1, e2, e3] at hv
          exact lt_irrefl _ hv
      · have hfull' : heap.length = limit := by omega
        rcases heap with _ | ⟨⟨s0, p0⟩, t⟩
        · simp only [List.length_nil] at hfull'
          omega
        have hhead : ∀ r ∈ t, s0 ≤ r.1 := by
          intro r hr
          exact (List.pairwise_cons.1 hsorted).1 r hr
        have htsorted := (List.pairwise_cons.1 hsorted).2
        have hlen' : t.length + 1 = limit := by simpa using hfull'
        rw [add_top_file_full s0 p0 t s q limit hl0 hs0 (by omega)]
        have hn' : limit ≤ (posOffers seen).length := by
          simp only [List.length_cons] at hlen
          omega
        by_cases hlt : s0 < s
        · rw [if_pos hlt]
          refine ⟨insertSorted_sorted _ _ htsorted, ?_, ?_, ?_, ?_⟩
          · rw [insertSorted_length, hposA]
            simp only [List.length_append, List.length_singleton]
            omega
          · rw [insertSorted_coe, hposA, coe_snoc]
            refine Multiset.cons_le_cons _ (le_trans ?_ hsub)
            rw [← Multiset.cons_coe]
            exact Multiset.le_cons_self _ _
          · intro o' ho' hp hn r hr
            rcases List.mem_append.1 ho' with ho' | ho'
            · by_cases hin : o' ∈ (s0, p0) :: t
              · rcases List.mem_cons.1 hin with ho0 | hint
                · subst ho0
                  rcases (mem_insertSorted _ _ _).1 hr with rfl | hrt
                  · exact le_of_lt hlt
                  · exact hhead r hrt
                · exact absurd ((mem_insertSorted _ _ _).2 (Or.inr hint)) hn
              · have hall := hexcl o' ho' hp hin
                rcases (mem_insertSorted _ _ _).1 hr with rfl | hrt
                · have h1 := hall (s0, p0) (List.mem_cons_self _ _)
                  simp only at h1 ⊢
                  omega
                · exact hall r (List.mem_cons.2 (Or.inr hrt))
            · rw [List.mem_singleton] at ho'
              subst ho'
              exact absurd ((mem_insertSorted _ _ _).2 (Or.inl rfl)) hn
          · intro v hv r hr
            by_cases hv0 : v = s0
            · subst hv0
              rcases (mem_insertSorted _ _ _).1 hr with rfl | hrt
              · exact le_of_lt hlt
              · exact hhead r hrt
            · have e1 : (↑(sizesOf (insertSorted t (s, q))) : Multiset Nat) =
                  s ::ₘ ↑(sizesOf t) := by
                rw [Multiset.cons_coe]
                refine Multiset.coe_eq_coe.2 ?_
                simpa [sizesOf] using (insertSorted_perm t (s, q)).map Prod.fst
              have e2 : (↑(sizesOf (posOffers (seen ++ [(s, q)]))) : Multiset Nat) =
                  s ::ₘ ↑(sizesOf (posOffers seen)) := by
                rw [hposA, sizesOf_snoc]
                exact coe_snoc _ _
              rw [e1, e2, Multiset.count_cons, Multiset.count_cons] at hv
              have hv' : (↑(sizesOf t) : Multiset Nat).count v <
                  (↑(sizesOf (posOffers seen)) : Multiset Nat).count v := by
                omega
              have hv'' : (↑(sizesOf ((s0, p0) :: t)) : Multiset Nat).count v <
                  (↑(sizesOf (posOffers seen)) : Multiset Nat).count v := by
                rw [sizesOf_cons, ← Multiset.cons_coe, Multiset.count_cons]
                simpa [hv0] using hv'
              have hall := hmiss v hv''
              rcases (mem_insertSorted _ _ _).1 hr with rfl | hrt
              · have h1 := hall (s0, p0) (List.mem_cons_self _ _)
                simp only at h1 ⊢
                omega
              · exact hall r (List.mem_cons.2 (Or.inr hrt))
        · rw [if_neg hlt]
          refine ⟨hsorted, ?_, ?_, ?_, ?_⟩
          · rw [hposA]
            simp only [List.length_append, List.length_singleton, List.length_cons]
            omega
          · rw [hposA, coe_snoc]
            exact le_trans hsub (Multiset.le_cons_self _ _)
          · intro o' ho' hp hn r hr
            rcases List.mem_append.1 ho' with ho' | ho'
            · exact hexcl o' ho' hp hn r hr
            · rw [List.mem_singleton] at ho'
              subst ho'
              rcases List.mem_cons.1 hr with rfl | hrt
              · simp only
                omega
              · have h1 := hhead r hrt
                simp only at h1 ⊢
                omega
          · intro v hv r hr
            by_cases hvs : v = s
            · subst hvs
              rcases List.mem_cons.1 hr with rfl | hrt
              · simp only
                omega
              · have h1 := hhead r hrt
                omega
            · have e2 : (↑(sizesOf (posOffers (seen ++ [(s, q)]))) : Multiset Nat) =
                  s ::ₘ ↑(sizesOf (posOffers seen)) := by
                rw [hposA, sizesOf_snoc]
                exact coe_snoc _ _
              rw [e2, Multiset.count_cons] at hv
              have hv' : (↑(sizesOf ((s0, p0) :: t)) : Multiset Nat).count v <
                  (↑(sizesOf (posOffers seen)) : Multiset Nat).count v := by
                simp only [hvs, if_false] at hv
                omega
              exact hmiss v hv' r hr

/-- The heap invariant holds initially. -/
theorem heapInv_nil (limit : Nat) : HeapInv limit [] [] := by
  refine ⟨List.Pairwise.nil, by simp [posOffers], by simp [posOffers], ?_, ?_⟩
  · intro o ho
    exact absurd ho (List.not_mem_nil o)
  · intro v hv r hr
    exact absurd hr (List.not_mem_nil r)

/-- A whole sequence of offers preserves the heap invariant. -/
theorem heapInv_fold (limit : Nat) (offers : List (Nat × Path)) :
    ∀ (seen heap : List (Nat × Path)), HeapInv limit seen heap →
      HeapInv limit (seen ++ offers) (offerFold limit offers heap) := by
  induction offers with
  | nil =>
    intro seen heap h
    rw [List.append_nil]
    exact h
  | cons o os ih =>
    intro seen heap h
    rcases o with ⟨s, q⟩
    have h2 := ih (seen ++ [(s, q)]) _ (heapInv_step limit seen heap s q h)
    simpa [offerFold, List.append_assoc] using h2

/-- The heap produced by a whole sequence of offers satisfies the
invariant. -/
theorem heapInv_offerFold (limit : Nat) (offers : List (Nat × Path)) :
    HeapInv limit offers (offerFold limit offers []) := by
  have h := heapInv_fold limit offers [] [] (heapInv_nil limit)
  rwa [List.nil_append] at h

/-! ### C2 -/

/-- C2: starting from the empty heap, after any sequence of offers with
a positive limit the heap holds exactly min(limit, number of offers of
positive size) records, and every record kept is at least as large as
every positive-size offer that is not in the heap. -/
theorem C2_thm (limit : Nat) (_hl : 0 < limit) (offers : List (Nat × Path)) :
    (offerFold limit offers []).length = min limit (posOffers offers).length ∧
    ∀ r ∈ offerFold limit offers [], ∀ o ∈ offers, 0 < o.1 →
      o ∉ offerFold limit offers [] → o.1 ≤ r.1 := by
  have h := heapInv_offerFold limit offers
  exact ⟨h.len, fun r hr o ho hp hn => h.excl o ho hp hn r hr⟩

/-- Witness for C2 at a concrete offer sequence with limit 2. -/
theorem C2_wit :
    0 < 2 ∧
    ((offerFold 2 [(5, ["a"]), (0, ["z"]), (3, ["b"]), (7, ["c"])] []).length =
        min 2 (posOffers [(5, ["a"]), (0, ["z"]), (3, ["b"]), (7, ["c"])]).length ∧
      ∀ r ∈ offerFold 2 [(5, ["a"]), (0, ["z"]), (3, ["b"]), (7, ["c"])] [],
        ∀ o ∈ [((5 : Nat), (["a"] : Path)), (0, ["z"]), (3, ["b"]), (7, ["c"])], 0 < o.1 →
          o ∉ offerFold 2 [(5, ["a"]), (0, ["z"]), (3, ["b"]), (7, ["c"])] [] → o.1 ≤ r.1) :=
  ⟨by decide, C2_thm 2 (by decide) [(5, ["a"]), (0, ["z"]), (3, ["b"]), (7, ["c"])]⟩

/-! ### Dict and state characterizations -/

/-- Total bytes of no events. -/
theorem totalOf_nil : totalOf [] = 0 := rfl

/-- Total bytes of one more event. -/
theorem totalOf_cons (e : Entry) (vs : List Entry) :
    totalOf (e :: vs) = entSize e + totalOf vs := by
  simp [totalOf]

/-- Folding no events is the identity. -/
theorem scanVisits_nil (root : Path) (d k : Nat) (st : ReportData) :
    scanVisits root d k [] st = st := rfl

/-- Folding one more event. -/
theorem scanVisits_cons (root : Path) (d k : Nat) (e : Entry) (vs : List Entry) (st : ReportData) :
    scanVisits root d k (e :: vs) st = scanVisits root d k vs (fileStep root d k st e) := rfl

/-- Updating one key leaves the others alone. -/
theorem lookupVal_bump_ne (m : List (Path × Nat)) (k0 key : Path) (v : Nat) (h : key ≠ k0) :
    lookupVal (bump m k0 v) key = lookupVal m key := by
  induction m with
  | nil => simp [bump, lookupVal, h]
  | cons kv rest ih =>
    rcases kv with ⟨k1, v1⟩
    by_cases h1 : k0 = k1
    · subst h1
      simp [bump, lookupVal, h]
    · by_cases h2 : key = k1 <;> simp [bump, lookupVal, h1, h2, ih]

/-- Updating one key adds to its old default-zero value. -/
theorem lookupVal_bump_self (m : List (Path × Nat)) (k0 : Path) (v : Nat) :
    lookupVal (bump m k0 v) k0 = some (getD m k0 + v) := by
  induction m with
  | nil => simp [bump, lookupVal, getD]
  | cons kv rest ih =>
    rcases kv with ⟨k1, v1⟩
    by_cases h1 : k0 = k1
    · subst h1
      simp [bump, lookupVal, getD]
    · simp [bump, lookupVal, getD, h1, ih]

/-- The dict read after an update. -/
theorem getD_bump (m : List (Path × Nat)) (k0 key : Path) (v : Nat) :
    getD (bump m k0 v) key = getD m key + (if key = k0 then v else 0) := by
  by_cases h : key = k0
  · subst h
    simp [getD, lookupVal_bump_self]
  · simp [getD, lookupVal_bump_ne m k0 key v h, h]

/-- An update adds its size to the sum of the dict values. -/
theorem sumVals_bump (m : List (Path × Nat)) (k0 : Path) (v : Nat) :
    sumVals (bump m k0 v) = sumVals m + v := by
  induction m with
  | nil => simp [bump, sumVals]
  | cons kv rest ih =>
    rcases kv with ⟨k1, v1⟩
    by_cases h1 : k0 = k1
    · subst h1
      simp [bump, sumVals]
      omega
    · simp [bump, sumVals, h1] at ih ⊢
      omega

/-- Keys of an updated dict. -/
theorem mem_bump (m : List (Path × Nat)) (k0 key : Path) (v w : Nat)
    (h : (key, w) ∈ bump m k0 v) : (∃ u, (key, u) ∈ m) ∨ key = k0 := by
  induction m with
  | nil =>
    simp [bump] at h
    exact Or.inr h.1
  | cons kv rest ih =>
    rcases kv with ⟨k1, v1⟩
    by_cases h1 : k0 = k1
    · subst h1
      simp [bump] at h
      rcases h with ⟨hk, hv⟩ | hmem
      · exact Or.inr hk
      · exact Or.inl ⟨w, List.mem_cons.2 (Or.inr hmem)⟩
    · simp [bump, h1] at h
      rcases h with ⟨hk, hv⟩ | hmem
      · exact Or.inl ⟨v1, by rw [hk]; exact List.mem_cons_self _ _⟩
      · rcases ih hmem with ⟨u, hu⟩ | hk
        · exact Or.inl ⟨u, List.mem_cons.2 (Or.inr hu)⟩
        · exact Or.inr hk

/-- The grand total after a fold of events. -/
theorem scanVisits_total (root : Path) (d k : Nat) (vs : List Entry) :
    ∀ st : ReportData,
      (scanVisits root d k vs st).total_bytes = st.total_bytes + totalOf vs := by
  induction vs with
  | nil => intro st; simp [totalOf_nil, scanVisits_nil]
  | cons e vs ih =>
    intro st
    rcases e with ⟨dp, n, sr⟩
    rw [scanVisits_cons, totalOf_cons, ih]
    cases sr with
    | err => simp [fileStep, entSize]
    | nonreg => simp [fileStep, entSize]
    | reg sz =>
      simp only [fileStep, entSize]
      omega

/-- The sum of the dict values after a fold of events. -/
theorem scanVisits_sumVals (root : Path) (d k : Nat) (vs : List Entry) :
    ∀ st : ReportData,
      sumVals (scanVisits root d k vs st).dir_sizes = sumVals st.dir_sizes + totalOf vs := by
  induction vs with
  | nil => intro st; simp [totalOf_nil, scanVisits_nil]
  | cons e vs ih =>
    intro st
    rcases e with ⟨dp, n, sr⟩
    rw [scanVisits_cons, totalOf_cons, ih]
    cases sr with
    | err => simp [fileStep, entSize]
    | nonreg => simp [fileStep, entSize]
    | reg sz =>
      simp only [fileStep, entSize, sumVals_bump]
      omega

/-- The per-key dict value after a fold of events. -/
theorem scanVisits_getD (root : Path) (d k : Nat) (key : Path) (vs : List Entry) :
    ∀ st : ReportData,
      getD (scanVisits root d k vs st).dir_sizes key =
        getD st.dir_sizes key + bucketSum root d key vs := by
  induction vs with
  | nil => intro st; simp [scanVisits_nil, bucketSum]
  | cons e vs ih =>
    intro st
    rcases e with ⟨dp, n, sr⟩
    rw [scanVisits_cons, ih]
    cases sr with
    | err => simp [fileStep, bucketSum, entBucketSize]
    | nonreg => simp [fileStep, bucketSum, entBucketSize]
    | reg sz =>
      simp only [fileStep, bucketSum, List.map_cons, List.sum_cons, entBucketSize, getD_bump]
      omega

/-- The heap after a fold of events is the fold of the offers made. -/
theorem scanVisits_top (root : Path) (d k : Nat) (vs : List Entry) :
    ∀ st : ReportData,
      (scanVisits root d k vs st).top_files = offerFold k (offersOf vs) st.top_files := by
  induction vs with
  | nil => intro st; simp [scanVisits_nil, offersOf, offerFold]
  | cons e vs ih =>
    intro st
    rcases e with ⟨dp, n, sr⟩
    rw [scanVisits_cons, ih]
    cases sr with
    | err => simp [fileStep, offersOf]
    | nonreg => simp [fileStep, offersOf]
    | reg sz =>
      have hoff : offersOf ((dp, n, StatRes.reg sz) :: vs) =
          (sz, dp ++ [n]) :: offersOf vs := by
        simp [offersOf]
      rw [hoff]
      rfl

/-- Everything in the heap after an offer was there or is the offer. -/
theorem mem_add_top_file (heap : List (Nat × Path)) (s : Nat) (q : Path) (limit : Nat)
    (r : Nat × Path) (h : r ∈ add_top_file heap s q limit) : r ∈ heap ∨ r = (s, q) := by
  by_cases h1 : limit ≤ 0
  · rw [add_top_file_limit0 _ _ _ _ h1] at h
    exact Or.inl h
  by_cases h2 : s ≤ 0
  · rw [add_top_file_size0 _ _ _ _ h2] at h
    exact Or.inl h
  by_cases h3 : heap.length < limit
  · rw [add_top_file_push _ _ _ _ h1 h2 h3] at h
    rcases (mem_insertSorted _ _ _).1 h with rfl | h'
    · exact Or.inr rfl
    · exact Or.inl h'
  · rcases heap with _ | ⟨⟨s0, p0⟩, t⟩
    · simp at h3
      omega
    · rw [add_top_file_full s0 p0 t s q limit h1 h2 (by simpa using h3)] at h
      by_cases h4 : s0 < s
      · rw [if_pos h4] at h
        rcases (mem_insertSorted _ _ _).1 h with rfl | h'
        · exact Or.inr rfl
        · exact Or.inl (List.mem_cons.2 (Or.inr h'))
      · rw [if_neg h4] at h
        exact Or.inl h

/-- Everything in the heap after a fold of offers was there or was
offered. -/
theorem mem_offerFold (limit : Nat) (os : List (Nat × Path)) :
    ∀ (heap : List (Nat × Path)) (r : Nat × Path),
      r ∈ offerFold limit os heap → r ∈ heap ∨ r ∈ os := by
  induction os with
  | nil => intro heap r h; exact Or.inl h
  | cons o os ih =>
    intro heap r h
    rcases o with ⟨s, q⟩
    have h0 : offerFold limit ((s, q) :: os) heap =
        offerFold limit os (add_top_file heap s q limit) := rfl
    rw [h0] at h
    rcases ih _ r h with h' | h'
    · rcases mem_add_top_file _ _ _ _ _ h' with h'' | h''
      · exact Or.inl h''
      · exact Or.inr (List.mem_cons.2 (Or.inl h''))
    · exact Or.inr (List.mem_cons.2 (Or.inr h'))

/-- Every key of the dict after a fold of events was a key before or is
the bucket of a visited event. -/
theorem mem_dirSizes_scanVisits (root : Path) (d k : Nat) (vs : List Entry) :
    ∀ (st : ReportData) (key : Path) (w : Nat),
      (key, w) ∈ (scanVisits root d k vs st).dir_sizes →
        (∃ u, (key, u) ∈ st.dir_sizes) ∨ ∃ e ∈ vs, key = dir_bucket root e.1 d := by
  induction vs with
  | nil => intro st key w h; exact Or.inl ⟨w, h⟩
  | cons e vs ih =>
    intro st key w h
    rw [scanVisits_cons] at h
    rcases e with ⟨dp, n, sr⟩
    cases sr with
    | err =>
      rcases ih _ key w h with h' | ⟨e, he, hk⟩
      · exact Or.inl h'
      · exact Or.inr ⟨e, List.mem_cons.2 (Or.inr he), hk⟩
    | nonreg =>
      rcases ih _ key w h with h' | ⟨e, he, hk⟩
      · exact Or.inl h'
      · exact Or.inr ⟨e, List.mem_cons.2 (Or.inr he), hk⟩
    | reg sz =>
      rcases ih _ key w h with h' | ⟨e, he, hk⟩
      · rcases h' with ⟨u, hu⟩
        rcases mem_bump _ _ _ _ _ hu with h'' | h''
        · exact Or.inl h''
        · exact Or.inr ⟨(dp, n, .reg sz), List.mem_cons_self _ _, h''⟩
      · exact Or.inr ⟨e, List.mem_cons.2 (Or.inr he), hk⟩

/-! ### The per-root loop -/

/-- The loop on no roots. -/
theorem scanRootsLoop_nil (fs : List (Path × FsDir)) (excl : List Path) (d k : Nat)
    (acc : ReportData × List Path) : scanRootsLoop fs excl d k [] acc = acc := rfl

/-- The loop on a missing root: warn and skip. -/
theorem scanRootsLoop_cons_none (fs : List (Path × FsDir)) (excl : List Path) (d k : Nat)
    (r : Path) (rest : List Path) (st : ReportData) (warns : List Path)
    (h : fsLookup fs r = none) :
    scanRootsLoop fs excl d k (r :: rest) (st, warns) =
      scanRootsLoop fs excl d k rest (st, warns ++ [r]) := by
  have h0 : scanRootsLoop fs excl d k (r :: rest) (st, warns) =
      (match fsLookup fs r with
       | none => scanRootsLoop fs excl d k rest (st, warns ++ [r])
       | some t => scanRootsLoop fs excl d k rest (scanDir r excl d k r t st, warns)) := rfl
  rw [h0, h]

/-- The loop on an existing root: walk it. -/
theorem scanRootsLoop_cons_some (fs : List (Path × FsDir)) (excl : List Path) (d k : Nat)
    (r : Path) (rest : List Path) (st : ReportData) (warns : List Path) (t : FsDir)
    (h : fsLookup fs r = some t) :
    scanRootsLoop fs excl d k (r :: rest) (st, warns) =
      scanRootsLoop fs excl d k rest (scanDir r excl d k r t st, warns) := by
  have h0 : scanRootsLoop fs excl d k (r :: rest) (st, warns) =
      (match fsLookup fs r with
       | none => scanRootsLoop fs excl d k rest (st, warns ++ [r])
       | some t => scanRootsLoop fs excl d k rest (scanDir r excl d k r t st, warns)) := rfl
  rw [h0, h]

/-- The report computed by the loop does not depend on the warnings
accumulated so far. -/
theorem scanRootsLoop_fst (fs : List (Path × FsDir)) (excl : List Path) (d k : Nat)
    (roots : List Path) :
    ∀ (st : ReportData) (warns warns' : List Path),
      (scanRootsLoop fs excl d k roots (st, warns)).1 =
        (scanRootsLoop fs excl d k roots (st, warns')).1 := by
  induction roots with
  | nil => intro st warns warns'; rfl
  | cons r rest ih =>
    intro st warns warns'
    cases hfs : fsLookup fs r with
    | none =>
      rw [scanRootsLoop_cons_none fs excl d k r rest st warns hfs,
        scanRootsLoop_cons_none fs excl d k r rest st warns' hfs]
      exact ih st _ _
    | some t =>
      rw [scanRootsLoop_cons_some fs excl d k r rest st warns t hfs,
        scanRootsLoop_cons_some fs excl d k r rest st warns' t hfs]
      exact ih _ _ _

/-- The warning stream is exactly the missing roots, in order. -/
theorem scanRootsLoop_warns (fs : List (Path × FsDir)) (excl : List Path) (d k : Nat)
    (roots : List Path) :
    ∀ (st : ReportData) (warns : List Path),
      (scanRootsLoop fs excl d k roots (st, warns)).2 =
        warns ++ roots.filter (fun r => (fsLookup fs r).isNone) := by
  induction roots with
  | nil => intro st warns; simp [scanRootsLoop_nil]
  | cons r rest ih =>
    intro st warns
    cases hfs : fsLookup fs r with
    | none =>
      rw [scanRootsLoop_cons_none fs excl d k r rest st warns hfs, ih]
      simp [List.filter_cons, hfs]
    | some t =>
      rw [scanRootsLoop_cons_some fs excl d k r rest st warns t hfs, ih]
      simp [List.filter_cons, hfs]

/-- Missing roots are skipped: the report equals the report of the
existing roots alone. -/
theorem scanRootsLoop_skip (fs : List (Path × FsDir)) (excl : List Path) (d k : Nat)
    (roots : List Path) :
    ∀ (st : ReportData) (warns : List Path),
      (scanRootsLoop fs excl d k roots (st, warns)).1 =
        (scanRootsLoop fs excl d k (roots.filter (fun r => (fsLookup fs r).isSome))
          (st, warns)).1 := by
  induction roots with
  | nil => intro st warns; rfl
  | cons r rest ih =>
    intro st warns
    cases hfs : fsLookup fs r with
    | none =>
      rw [scanRootsLoop_cons_none fs excl d k r rest st warns hfs]
      have hfilter : (r :: rest).filter (fun r => (fsLookup fs r).isSome) =
          rest.filter (fun r => (fsLookup fs r).isSome) := by
        simp [List.filter_cons, hfs]
      rw [hfilter, scanRootsLoop_fst fs excl d k rest st (warns ++ [r]) warns]
      exact ih st warns
    | some t =>
      rw [scanRootsLoop_cons_some fs excl d k r rest st warns t hfs]
      have hfilter : (r :: rest).filter (fun r => (fsLookup fs r).isSome) =
          r :: rest.filter (fun r => (fsLookup fs r).isSome) := by
        simp [List.filter_cons, hfs]
      rw [hfilter, scanRootsLoop_cons_some fs excl d k r _ st warns t hfs]
      exact ih _ warns

/-- The walk of one root adds the total of its visited events. -/
theorem scanDir_total (root : Path) (excl : List Path) (d k : Nat) (dp : Path) (t : FsDir)
    (st : ReportData) :
    (scanDir root excl d k dp t st).total_bytes =
      st.total_bytes + totalOf (visitedFiles excl dp t) := by
  rw [scanDir_visits]
  exact scanVisits_total root d k _ st

/-- The walk of one root adds the per-key bucket total of its visited
events. -/
theorem scanDir_getD (root : Path) (excl : List Path) (d k : Nat) (dp : Path) (t : FsDir)
    (st : ReportData) (key : Path) :
    getD (scanDir root excl d k dp t st).dir_sizes key =
      getD st.dir_sizes key + bucketSum root d key (visitedFiles excl dp t) := by
  rw [scanDir_visits]
  exact scanVisits_getD root d k key _ st

/-- The walk of one root adds its visited total to the sum of the dict
values. -/
theorem scanDir_sumVals (root : Path) (excl : List Path) (d k : Nat) (dp : Path) (t : FsDir)
    (st : ReportData) :
    sumVals (scanDir root excl d k dp t st).dir_sizes =
      sumVals st.dir_sizes + totalOf (visitedFiles excl dp t) := by
  rw [scanDir_visits]
  exact scanVisits_sumVals root d k _ st

/-- The grand total computed by the loop is the initial total plus the
total of a fresh run. -/
theorem scanRootsLoop_total (fs : List (Path × FsDir)) (excl : List Path) (d k : Nat)
    (roots : List Path) :
    ∀ (st : ReportData) (warns : List Path),
      ((scanRootsLoop fs excl d k roots (st, warns)).1).total_bytes =
        st.total_bytes +
          ((scanRootsLoop fs excl d k roots (⟨[], [], 0⟩, [])).1).total_bytes := by
  induction roots with
  | nil => intro st warns; rfl
  | cons r rest ih =>
    intro st warns
    cases hfs : fsLookup fs r with
    | none =>
      rw [scanRootsLoop_cons_none fs excl d k r rest st warns hfs,
        scanRootsLoop_cons_none fs excl d k r rest ⟨[], [], 0⟩ [] hfs]
      have h1 := ih st (warns ++ [r])
      have h2 := ih ⟨[], [], 0⟩ ([] ++ [r])
      have h5 : (⟨[], [], 0⟩ : ReportData).total_bytes = 0 := rfl
      omega
    | some t =>
      rw [scanRootsLoop_cons_some fs excl d k r rest st warns t hfs,
        scanRootsLoop_cons_some fs excl d k r rest ⟨[], [], 0⟩ [] t hfs]
      have h1 := ih (scanDir r excl d k r t st) warns
      have h2 := ih (scanDir r excl d k r t ⟨[], [], 0⟩) []
      have h3 := scanDir_total r excl d k r t st
      have h4 := scanDir_total r excl d k r t ⟨[], [], 0⟩
      have h5 : (⟨[], [], 0⟩ : ReportData).total_bytes = 0 := rfl
      omega

/-- The per-key dict value computed by the loop is the initial value plus
the value of a fresh run. -/
theorem scanRootsLoop_getD (fs : List (Path × FsDir)) (excl : List Path) (d k : Nat)
    (roots : List Path) (key : Path) :
    ∀ (st : ReportData) (warns : List Path),
      getD ((scanRootsLoop fs excl d k roots (st, warns)).1).dir_sizes key =
        getD st.dir_sizes key +
          getD ((scanRootsLoop fs excl d k roots (⟨[], [], 0⟩, [])).1).dir_sizes key := by
  induction roots with
  | nil => intro st warns; simp [scanRootsLoop_nil, getD, lookupVal]
  | cons r rest ih =>
    intro st warns
    cases hfs : fsLookup fs r with
    | none =>
      rw [scanRootsLoop_cons_none fs excl d k r rest st warns hfs,
        scanRootsLoop_cons_none fs excl d k r rest ⟨[], [], 0⟩ [] hfs]
      have h1 := ih st (warns ++ [r])
      have h2 := ih ⟨[], [], 0⟩ ([] ++ [r])
      have h5 : getD (⟨[], [], 0⟩ : ReportData).dir_sizes key = 0 := rfl
      omega
    | some t =>
      rw [scanRootsLoop_cons_some fs excl d k r rest st warns t hfs,
        scanRootsLoop_cons_some fs excl d k r rest ⟨[], [], 0⟩ [] t hfs]
      have h1 := ih (scanDir r excl d k r t st) warns
      have h2 := ih (scanDir r excl d k r t ⟨[], [], 0⟩) []
      have h3 := scanDir_getD r excl d k r t st key
      have h4 := scanDir_getD r excl d k r t ⟨[], [], 0⟩ key
      have h5 : getD (⟨[], [], 0⟩ : ReportData).dir_sizes key = 0 := rfl
      omega

/-- The loop preserves total conservation. -/
theorem scanRootsLoop_conserve (fs : List (Path × FsDir)) (excl : List Path) (d k : Nat)
    (roots : List Path) :
    ∀ (st : ReportData) (warns : List Path),
      st.total_bytes = sumVals st.dir_sizes →
      ((scanRootsLoop fs excl d k roots (st, warns)).1).total_bytes =
        sumVals ((scanRootsLoop fs excl d k roots (st, warns)).1).dir_sizes := by
  induction roots with
  | nil => intro st warns h; exact h
  | cons r rest ih =>
    intro st warns h
    cases hfs : fsLookup fs r with
    | none =>
      rw [scanRootsLoop_cons_none fs excl d k r rest st warns hfs]
      exact ih st _ h
    | some t =>
      rw [scanRootsLoop_cons_some fs excl d k r rest st warns t hfs]
      refine ih _ warns ?_
      rw [scanDir_total, scanDir_sumVals, h]

/-- The loop over a concatenation runs the second list from the first's
final state. -/
theorem scanRootsLoop_append (fs : List (Path × FsDir)) (excl : List Path) (d k : Nat)
    (a b : List Path) :
    ∀ acc : ReportData × List Path,
      scanRootsLoop fs excl d k (a ++ b) acc =
        scanRootsLoop fs excl d k b (scanRootsLoop fs excl d k a acc) := by
  induction a with
  | nil => intro acc; rfl
  | cons r rest ih =>
    intro acc
    rcases acc with ⟨st, warns⟩
    cases hfs : fsLookup fs r with
    | none =>
      rw [List.cons_append, scanRootsLoop_cons_none fs excl d k r (rest ++ b) st warns hfs,
        scanRootsLoop_cons_none fs excl d k r rest st warns hfs]
      exact ih _
    | some t =>
      rw [List.cons_append, scanRootsLoop_cons_some fs excl d k r (rest ++ b) st warns t hfs,
        scanRootsLoop_cons_some fs excl d k r rest st warns t hfs]
      exact ih _

/-- Normalization distributes over concatenated argument lists. -/
theorem normalize_paths_append (resolve : String → Path) (a b : List String) :
    normalize_paths resolve (a ++ b) =
      normalize_paths resolve a ++ normalize_paths resolve b := by
  rw [normalize_paths_eq, normalize_paths_eq, normalize_paths_eq,
    List.filter_append, List.map_append]

/-! ### C3 -/

/-- C3: for every scan, the returned total_bytes equals the sum of the
dir_sizes values: each regular file's size goes to exactly one bucket
(its directory's bucket) and to the grand total, with no double count
within a root's traversal. -/
theorem C3_thm (fs : List (Path × FsDir)) (resolve : String → Path)
    (roots exclude : List String) (maxDepth limit : Nat) :
    ((scan_roots fs resolve roots exclude maxDepth limit).1).total_bytes =
      sumVals ((scan_roots fs resolve roots exclude maxDepth limit).1).dir_sizes := by
  unfold scan_roots
  exact scanRootsLoop_conserve fs _ maxDepth limit _ ⟨[], [], 0⟩ [] rfl

/-! ### C8 -/

/-- C8: a root that is not an existing directory produces a warning on
the error stream and is skipped, without affecting the other roots: the
warning stream is exactly the missing roots in order, the report equals
the report of the existing roots alone, every missing root is warned
about, and when every root is missing the report is empty (and the scan,
being a total function, does not crash). -/
theorem C8_thm (fs : List (Path × FsDir)) (resolve : String → Path)
    (roots exclude : List String) (d k : Nat) :
    (scan_roots fs resolve roots exclude d k).2 =
      (normalize_paths resolve roots).filter (fun r => (fsLookup fs r).isNone) ∧
    (scan_roots fs resolve roots exclude d k).1 =
      (scanRootsLoop fs (normalize_paths resolve exclude) d k
        ((normalize_paths resolve roots).filter (fun r => (fsLookup fs r).isSome))
        (⟨[], [], 0⟩, [])).1 ∧
    (∀ r ∈ normalize_paths resolve roots, fsLookup fs r = none →
      r ∈ (scan_roots fs resolve roots exclude d k).2) ∧
    ((∀ r ∈ normalize_paths resolve roots, fsLookup fs r = none) →
      (scan_roots fs resolve roots exclude d k).1 = ⟨[], [], 0⟩) := by
  have h1 : (scan_roots fs resolve roots exclude d k).2 =
      (normalize_paths resolve roots).filter (fun r => (fsLookup fs r).isNone) := by
    unfold scan_roots
    rw [scanRootsLoop_warns]
    simp
  have h2 : (scan_roots fs resolve roots exclude d k).1 =
      (scanRootsLoop fs (normalize_paths resolve exclude) d k
        ((normalize_paths resolve roots).filter (fun r => (fsLookup fs r).isSome))
        (⟨[], [], 0⟩, [])).1 := by
    unfold scan_roots
    exact scanRootsLoop_skip fs _ d k _ ⟨[], [], 0⟩ []
  refine ⟨h1, h2, ?_, ?_⟩
  · intro r hr hnone
    rw [h1]
    exact List.mem_filter.2 ⟨hr, by simp [hnone]⟩
  · intro hall
    rw [h2]
    have hnil : (normalize_paths resolve roots).filter (fun r => (fsLookup fs r).isSome) = [] := by
      rw [List.filter_eq_nil_iff]
      intro r hr
      simp [hall r hr]
    rw [hnil]
    rfl

/-- Witness for C8: a scan whose only root does not exist warns about it
and returns the empty report. -/
theorem C8_wit :
    (scan_roots [] (fun s => [s]) ["/x"] [] 1 1).2 = [["/x"]] ∧
    (scan_roots [] (fun s => [s]) ["/x"] [] 1 1).1 = ⟨[], [], 0⟩ := by
  have h := C8_thm [] (fun s => [s]) ["/x"] [] 1 1
  refine ⟨?_, h.2.2.2 ?_⟩
  · rw [h.1]
    rfl
  · intro r hr
    rfl

/-! ### C10 -/

/-- C10: scanning the concatenation of two root lists over the same tree
yields the sum of the two totals and the key-wise sum of the two bucket
maps; in particular a file reachable under two overlapping roots is
counted once per root in total_bytes. -/
theorem C10_thm (fs : List (Path × FsDir)) (resolve : String → Path)
    (roots1 roots2 exclude : List String) (d k : Nat) :
    ((scan_roots fs resolve (roots1 ++ roots2) exclude d k).1).total_bytes =
      ((scan_roots fs resolve roots1 exclude d k).1).total_bytes +
        ((scan_roots fs resolve roots2 exclude d k).1).total_bytes ∧
    ∀ key : Path,
      getD ((scan_roots fs resolve (roots1 ++ roots2) exclude d k).1).dir_sizes key =
        getD ((scan_roots fs resolve roots1 exclude d k).1).dir_sizes key +
          getD ((scan_roots fs resolve roots2 exclude d k).1).dir_sizes key := by
  unfold scan_roots
  rw [normalize_paths_append, scanRootsLoop_append]
  constructor
  · rcases hA : scanRootsLoop fs (normalize_paths resolve exclude) d k
        (normalize_paths resolve roots1) (⟨[], [], 0⟩, []) with ⟨stA, wA⟩
    exact scanRootsLoop_total fs (normalize_paths resolve exclude) d k
      (normalize_paths resolve roots2) stA wA
  · intro key
    rcases hA : scanRootsLoop fs (normalize_paths resolve exclude) d k
        (normalize_paths resolve roots1) (⟨[], [], 0⟩, []) with ⟨stA, wA⟩
    exact scanRootsLoop_getD fs (normalize_paths resolve exclude) d k
      (normalize_paths resolve roots2) key stA wA

/-! ### Exclusion pruning -/

/-- A member of the exclude set that is a prefix of a path makes
is_under true. -/
theorem is_under_of_mem (path P : Path) (excl : List Path) (hP : P ∈ excl)
    (h : P <+: path) : is_under path excl = true := by
  unfold is_under
  rw [List.any_eq_true]
  refine ⟨P, hP, ?_⟩
  rw [ List.isPrefixOf_iff_prefix]
  exact h

/-- The bucket of a directory below the root is an ancestor-or-equal of
the directory. -/
theorem dir_bucket_pre (root dp : Path) (d : Nat) (h : root <+: dp) :
    dir_bucket root dp d <+: dp := by
  obtain ⟨rel, rfl⟩ := h
  unfold dir_bucket
  by_cases hc : root ++ rel = root
  · rw [if_pos hc]
    exact ⟨rel, rfl⟩
  · rw [if_neg hc, List.drop_left]
    exact ⟨rel.drop d, by rw [List.append_assoc, List.take_append_drop]⟩

/-- A prefix of a path extended by one component is a prefix of the path
or the whole extension. -/
theorem pre_snoc (P l : Path) (x : String) (h : P <+: l ++ [x]) :
    P <+: l ∨ P = l ++ [x] := by
  obtain ⟨s, hs⟩ := h
  by_cases hlen : P.length ≤ l.length
  · left
    have h1 : P = (l ++ [x]).take P.length := by
      rw [← hs, List.take_left]
    rw [h1, List.take_append_of_le_length hlen]
    exact List.take_prefix _ _
  · right
    have hlen2 : P.length = l.length + 1 := by
      have h2 := congrArg List.length hs
      simp at h2
      omega
    have h1 : P = (l ++ [x]).take P.length := by
      rw [← hs, List.take_left]
    have h3 : (l ++ [x]).length = l.length + 1 := by simp
    rw [h1, hlen2, ← h3, List.take_length]

/-- Every directory the walk of one root yields lies at or below the
directory the walk started from. -/
theorem walkDirs_pre (excl : List Path) (t : FsDir) :
    ∀ (dp : Path), ∀ p ∈ walkDirs excl dp t, dp <+: p.1 :=
  @FsDir.rec (fun t => ∀ dp, ∀ p ∈ walkDirs excl dp t, dp <+: p.1)
    (fun f => ∀ dp, ∀ p ∈ walkForest excl dp f, dp <+: p.1)
    (fun files subs ihsubs dp p hp => by
      rw [walkDirs] at hp
      by_cases h : is_under dp excl
      · rw [if_pos h, List.mem_singleton] at hp
        subst hp
        exact ⟨[], by simp⟩
      · rw [if_neg h] at hp
        rcases List.mem_cons.1 hp with rfl | hp'
        · exact ⟨[], by simp⟩
        · exact ihsubs dp p hp')
    (fun dp p hp => by
      rw [walkForest] at hp
      exact absurd hp (List.not_mem_nil p))
    (fun name tree rest ihtree ihrest dp p hp => by
      rw [walkForest] at hp
      rcases List.mem_append.1 hp with hp' | hp'
      · exact (List.prefix_append dp [name]).trans (ihtree (dp ++ [name]) p hp')
      · exact ihrest dp p hp')
    t

/-- Hard prune: a yielded directory strictly below an excluded prefix
can only occur when the walk itself started below that prefix. -/
theorem walkDirs_prune (excl : List Path) (P : Path) (hP : P ∈ excl) (t : FsDir) :
    ∀ (dp : Path), ∀ p ∈ walkDirs excl dp t, P <+: p.1 → p.1 = P ∨ P <+: dp :=
  @FsDir.rec (fun t => ∀ dp, ∀ p ∈ walkDirs excl dp t, P <+: p.1 → p.1 = P ∨ P <+: dp)
    (fun f => ∀ dp, ∀ p ∈ walkForest excl dp f, P <+: p.1 → p.1 = P ∨ P <+: dp)
    (fun files subs ihsubs dp p hp hpre => by
      rw [walkDirs] at hp
      by_cases h : is_under dp excl
      · rw [if_pos h, List.mem_singleton] at hp
        subst hp
        exact Or.inr hpre
      · rw [if_neg h] at hp
        rcases List.mem_cons.1 hp with rfl | hp'
        · exact Or.inr hpre
        · exact ihsubs dp p hp' hpre)
    (fun dp p hp hpre => by
      rw [walkForest] at hp
      exact absurd hp (List.not_mem_nil p))
    (fun name tree rest ihtree ihrest dp p hp hpre => by
      rw [walkForest] at hp
      rcases List.mem_append.1 hp with hp' | hp'
      · rcases ihtree (dp ++ [name]) p hp' hpre with h1 | h1
        · exact Or.inl h1
        · rcases pre_snoc P dp name h1 with h2 | h2
          · exact Or.inr h2
          · rcases tree with ⟨files', subs'⟩
            have hex : is_under (dp ++ [name]) excl = true := by
              refine is_under_of_mem _ P excl hP ?_
              rw [← h2]
            rw [walkDirs, if_pos hex, List.mem_singleton] at hp'
            subst hp'
            exact Or.inl h2.symm
      · exact ihrest dp p hp' hpre)
    t

/-- Membership in the events of a walk list. -/
theorem mem_visitedOf (excl : List Path) (ds : List (Path × List (String × StatRes)))
    (e : Entry) : e ∈ visitedOf excl ds ↔ ∃ p ∈ ds, e ∈ dirEvents excl p := by
  induction ds with
  | nil => simp [visitedOf]
  | cons p ds ih =>
    rw [visitedOf_cons]
    simp [List.mem_append, ih]

/-- An event of one yielded directory is not excluded and carries its
directory. -/
theorem mem_dirEvents (excl : List Path) (p : Path × List (String × StatRes)) (e : Entry)
    (h : e ∈ dirEvents excl p) : is_under p.1 excl = false ∧ e.1 = p.1 := by
  unfold dirEvents at h
  by_cases hc : is_under p.1 excl
  · rw [if_pos hc] at h
    exact absurd h (List.not_mem_nil e)
  · rw [if_neg hc] at h
    rw [List.mem_map] at h
    obtain ⟨f, hf, he⟩ := h
    constructor
    · simpa using hc
    · rw [← he]

/-- Every visited event of one root is not excluded and lies at or below
the root. -/
theorem mem_visitedFiles (excl : List Path) (dp : Path) (t : FsDir) (e : Entry)
    (h : e ∈ visitedFiles excl dp t) : is_under e.1 excl = false ∧ dp <+: e.1 := by
  unfold visitedFiles at h
  rw [mem_visitedOf] at h
  obtain ⟨p, hp, he⟩ := h
  have h1 := mem_dirEvents excl p e he
  have h2 := walkDirs_pre excl t dp p hp
  refine ⟨?_, ?_⟩
  · rw [h1.2]
    exact h1.1
  · rw [h1.2]
    exact h2

/-- Every offer made by a list of events names the file of one event. -/
theorem mem_offersOf (vs : List Entry) (r : Nat × Path) (h : r ∈ offersOf vs) :
    ∃ e ∈ vs, r.2 = e.1 ++ [e.2.1] := by
  unfold offersOf at h
  rw [List.mem_filterMap] at h
  obtain ⟨e, he, hf⟩ := h
  refine ⟨e, he, ?_⟩
  rcases e with ⟨dp, n, sr⟩
  cases sr with
  | err => simp at hf
  | nonreg => simp at hf
  | reg sz =>
    injection hf with hf2
    rw [← hf2]

/-- The walk of one root keeps excluded prefixes out of the bucket keys
and out of the heap paths (except for a file path equal to the excluded
prefix itself). -/
theorem scanDir_c4 (root : Path) (excl : List Path) (P : Path) (hP : P ∈ excl) (d k : Nat)
    (t : FsDir) (st : ReportData)
    (hkeys : ∀ key w, (key, w) ∈ st.dir_sizes → ¬ P <+: key)
    (htop : ∀ sz q, (sz, q) ∈ st.top_files → P <+: q → q = P) :
    (∀ key w, (key, w) ∈ (scanDir root excl d k root t st).dir_sizes → ¬ P <+: key) ∧
    (∀ sz q, (sz, q) ∈ (scanDir root excl d k root t st).top_files → P <+: q → q = P) := by
  constructor
  · intro key w hmem hpre
    rw [scanDir_visits] at hmem
    rcases mem_dirSizes_scanVisits root d k _ st key w hmem with ⟨u, hu⟩ | ⟨e, he, hk⟩
    · exact hkeys key u hu hpre
    · have h1 := mem_visitedFiles excl root t e he
      have h2 : key <+: e.1 := by
        rw [hk]
        exact dir_bucket_pre root e.1 d h1.2
      have h3 := is_under_of_mem e.1 P excl hP (hpre.trans h2)
      rw [h1.1] at h3
      exact absurd h3 (by decide)
  · intro sz q hmem hpre
    rw [scanDir_visits, scanVisits_top] at hmem
    rcases mem_offerFold k _ _ _ hmem with h' | h'
    · exact htop sz q h' hpre
    · obtain ⟨e, he, hq⟩ := mem_offersOf _ _ h'
      simp only at hq
      have h1 := mem_visitedFiles excl root t e he
      rw [hq] at hpre ⊢
      rcases pre_snoc P e.1 e.2.1 hpre with h2 | h2
      · have h3 := is_under_of_mem e.1 P excl hP h2
        rw [h1.1] at h3
        exact absurd h3 (by decide)
      · exact h2.symm

/-- The per-root loop preserves the exclusion property of the report. -/
theorem scanRootsLoop_c4 (fs : List (Path × FsDir)) (excl : List Path) (P : Path)
    (hP : P ∈ excl) (d k : Nat) (roots : List Path) :
    ∀ (st : ReportData) (warns : List Path),
      (∀ key w, (key, w) ∈ st.dir_sizes → ¬ P <+: key) →
      (∀ sz q, (sz, q) ∈ st.top_files → P <+: q → q = P) →
      (∀ key w, (key, w) ∈ ((scanRootsLoop fs excl d k roots (st, warns)).1).dir_sizes →
        ¬ P <+: key) ∧
      (∀ sz q, (sz, q) ∈ ((scanRootsLoop fs excl d k roots (st, warns)).1).top_files →
        P <+: q → q = P) := by
  induction roots with
  | nil => intro st warns h1 h2; exact ⟨h1, h2⟩
  | cons r rest ih =>
    intro st warns h1 h2
    cases hfs : fsLookup fs r with
    | none =>
      rw [scanRootsLoop_cons_none fs excl d k r rest st warns hfs]
      exact ih st _ h1 h2
    | some t =>
      rw [scanRootsLoop_cons_some fs excl d k r rest st warns t hfs]
      have h3 := scanDir_c4 r excl P hP d k t st h1 h2
      exact ih _ warns h3.1 h3.2

/-! ### C4 -/

/-- C4: the claim says no path in top_files is under an excluded prefix;
when the exclude entry names a file, that very file still appears in
top_files (exclusion is only tested against directories), and its path
is under (equal to) the prefix. -/
theorem C4_cex :
    (["t", "a.txt"] : Path) ∈ normalize_paths cexResolve ["/t/a.txt"] ∧
    (100, (["t", "a.txt"] : Path)) ∈
      ((scan_roots cexFs cexResolve ["/t"] ["/t/a.txt"] 1 10).1).top_files ∧
    (["t", "a.txt"] : Path) <+: ["t", "a.txt"] := by
  refine ⟨by decide, ?_, List.prefix_rfl⟩
  decide

/-- C4 amended: for every scan and every normalized exclude prefix P, no
key of dir_sizes equals P or lies below P; every top_files path that is
under P equals P itself (possible only when the exclude entry names a
file); no visited file event lies under P; and the walk never yields a
strict descendant of P unless the root itself started below P (hard
prune). -/
theorem C4_thm (fs : List (Path × FsDir)) (resolve : String → Path)
    (roots exclude : List String) (d k : Nat) (P : Path)
    (hP : P ∈ normalize_paths resolve exclude) :
    (∀ key w, (key, w) ∈ ((scan_roots fs resolve roots exclude d k).1).dir_sizes →
      ¬ P <+: key) ∧
    (∀ sz q, (sz, q) ∈ ((scan_roots fs resolve roots exclude d k).1).top_files →
      P <+: q → q = P) ∧
    (∀ r t, fsLookup fs r = some t →
      ∀ e ∈ visitedFiles (normalize_paths resolve exclude) r t, ¬ P <+: e.1) ∧
    (∀ r t, fsLookup fs r = some t →
      ∀ p ∈ walkDirs (normalize_paths resolve exclude) r t,
        P <+: p.1 → p.1 = P ∨ P <+: r) := by
  have hmain := scanRootsLoop_c4 fs (normalize_paths resolve exclude) P hP d k
    (normalize_paths resolve roots) ⟨[], [], 0⟩ []
    (by intro key w h; exact absurd h (List.not_mem_nil _))
    (by intro sz q h; exact absurd h (List.not_mem_nil _))
  refine ⟨hmain.1, hmain.2, ?_, ?_⟩
  · intro r t hfs e he hpre
    have h1 := mem_visitedFiles (normalize_paths resolve exclude) r t e he
    have h2 := is_under_of_mem e.1 P (normalize_paths resolve exclude) hP hpre
    rw [h1.1] at h2
    exact absurd h2 (by decide)
  · intro r t hfs p hp hpre
    exact walkDirs_prune (normalize_paths resolve exclude) P hP t r p hp hpre

/-- Witness for C4 at scenario 1 with /tmp/t/sub excluded. -/
theorem C4_wit :
    (["tmp", "t", "sub"] : Path) ∈ normalize_paths c4Resolve ["/tmp/t/sub"] ∧
    ((∀ key w, (key, w) ∈ ((scan_roots scn1Fs c4Resolve ["/tmp/t"] ["/tmp/t/sub"] 1 10).1).dir_sizes →
        ¬ (["tmp", "t", "sub"] : Path) <+: key) ∧
      (∀ sz q, (sz, q) ∈ ((scan_roots scn1Fs c4Resolve ["/tmp/t"] ["/tmp/t/sub"] 1 10).1).top_files →
        (["tmp", "t", "sub"] : Path) <+: q → q = ["tmp", "t", "sub"]) ∧
      (∀ r t, fsLookup scn1Fs r = some t →
        ∀ e ∈ visitedFiles (normalize_paths c4Resolve ["/tmp/t/sub"]) r t,
          ¬ (["tmp", "t", "sub"] : Path) <+: e.1) ∧
      (∀ r t, fsLookup scn1Fs r = some t →
        ∀ p ∈ walkDirs (normalize_paths c4Resolve ["/tmp/t/sub"]) r t,
          (["tmp", "t", "sub"] : Path) <+: p.1 → p.1 = ["tmp", "t", "sub"] ∨
            (["tmp", "t", "sub"] : Path) <+: r)) :=
  ⟨by decide, C4_thm scn1Fs c4Resolve ["/tmp/t"] ["/tmp/t/sub"] 1 10 ["tmp", "t", "sub"] (by decide)⟩

/-! ### Order independence -/

/-- A sub-multiset of the offered sizes of the right cardinality whose
undercounted values are lower bounds is unique. -/
theorem topk_unique (O H1 H2 : Multiset Nat) (hs1 : H1 ≤ O) (hs2 : H2 ≤ O)
    (hc : Multiset.card H1 = Multiset.card H2)
    (m1 : ∀ v, H1.count v < O.count v → ∀ h ∈ H1, v ≤ h)
    (m2 : ∀ v, H2.count v < O.count v → ∀ h ∈ H2, v ≤ h) : H1 = H2 := by
  by_contra hne
  have hex1 : ∃ v, H1.count v < H2.count v := by
    by_contra hall
    push_neg at hall
    have hle : H2 ≤ H1 := Multiset.le_iff_count.2 hall
    exact hne (Multiset.eq_of_le_of_card_le hle (le_of_eq hc)).symm
  have hex2 : ∃ w, H2.count w < H1.count w := by
    by_contra hall
    push_neg at hall
    have hle : H1 ≤ H2 := Multiset.le_iff_count.2 hall
    exact hne (Multiset.eq_of_le_of_card_le hle (le_of_eq hc.symm))
  obtain ⟨v, hv⟩ := hex1
  obtain ⟨w, hw⟩ := hex2
  have hvO : H1.count v < O.count v := lt_of_lt_of_le hv (Multiset.le_iff_count.1 hs2 v)
  have hwO : H2.count w < O.count w := lt_of_lt_of_le hw (Multiset.le_iff_count.1 hs1 w)
  have hvH2 : v ∈ H2 := by
    rw [← Multiset.count_pos]
    omega
  have hwH1 : w ∈ H1 := by
    rw [← Multiset.count_pos]
    omega
  have hvw : v ≤ w := m1 v hvO w hwH1
  have hwv : w ≤ v := m2 w hwO v hvH2
  have hveq : v = w := le_antisymm hvw hwv
  subst hveq
  omega

/-- The sizes of a list of records, as a multiset. -/
theorem sizesOf_coe (l : List (Nat × Path)) :
    (↑(sizesOf l) : Multiset Nat) = Multiset.map Prod.fst (↑l : Multiset (Nat × Path)) := rfl

/-- The multiset of heap sizes is the same for any two permutations of
the same offers. -/
theorem offerFold_sizes (limit : Nat) (offers1 offers2 : List (Nat × Path))
    (hp : offers1.Perm offers2) :
    (sizesOf (offerFold limit offers1 [])).Perm (sizesOf (offerFold limit offers2 [])) := by
  have h1 := heapInv_offerFold limit offers1
  have h2 := heapInv_offerFold limit offers2
  have hpos : (posOffers offers1).Perm (posOffers offers2) := hp.filter _
  have hO : (↑(sizesOf (posOffers offers1)) : Multiset Nat) =
      ↑(sizesOf (posOffers offers2)) := by
    refine Multiset.coe_eq_coe.2 ?_
    simpa [sizesOf] using hpos.map Prod.fst
  have hs1 : (↑(sizesOf (offerFold limit offers1 [])) : Multiset Nat) ≤
      ↑(sizesOf (posOffers offers1)) := by
    rw [sizesOf_coe, sizesOf_coe]
    exact Multiset.map_le_map h1.sub
  have hs2 : (↑(sizesOf (offerFold limit offers2 [])) : Multiset Nat) ≤
      ↑(sizesOf (posOffers offers2)) := by
    rw [sizesOf_coe, sizesOf_coe]
    exact Multiset.map_le_map h2.sub
  have hcard : Multiset.card (↑(sizesOf (offerFold limit offers1 [])) : Multiset Nat) =
      Multiset.card (↑(sizesOf (offerFold limit offers2 [])) : Multiset Nat) := by
    simp only [Multiset.coe_card, sizesOf, List.length_map]
    rw [h1.len, h2.len, hpos.length_eq]
  have hm : ∀ (h : HeapInv limit offers1 (offerFold limit offers1 [])) (heap : List (Nat × Path)),
      heap = offerFold limit offers1 [] → True := fun _ _ _ => trivial
  refine Multiset.coe_eq_coe.1 ?_
  refine topk_unique ↑(sizesOf (posOffers offers1)) _ _ hs1 (hO ▸ hs2) hcard ?_ ?_
  · intro v hv h hh
    rw [sizesOf_coe, Multiset.mem_map] at hh
    obtain ⟨r, hr, hrfst⟩ := hh
    rw [← hrfst]
    exact h1.missing v hv r (Multiset.mem_coe.1 hr)
  · intro v hv h hh
    rw [sizesOf_coe, Multiset.mem_map] at hh
    obtain ⟨r, hr, hrfst⟩ := hh
    rw [← hrfst]
    refine h2.missing v ?_ r (Multiset.mem_coe.1 hr)
    rw [← hO]
    exact hv

/-- Presence of a key after an update. -/
theorem present_bump (m : List (Path × Nat)) (k0 key : Path) (v : Nat) :
    (lookupVal (bump m k0 v) key).isSome ↔ (lookupVal m key).isSome ∨ key = k0 := by
  by_cases h : key = k0
  · subst h
    simp [lookupVal_bump_self]
  · rw [lookupVal_bump_ne m k0 key v h]
    simp [h]

/-- Presence of a key after a fold of events. -/
theorem scanVisits_present (root : Path) (d k : Nat) (key : Path) (vs : List Entry) :
    ∀ st : ReportData,
      (lookupVal (scanVisits root d k vs st).dir_sizes key).isSome ↔
        (lookupVal st.dir_sizes key).isSome ∨
          ∃ e ∈ vs, (∃ sz, e.2.2 = StatRes.reg sz) ∧ key = dir_bucket root e.1 d := by
  induction vs with
  | nil => intro st; simp [scanVisits_nil]
  | cons e vs ih =>
    intro st
    rw [scanVisits_cons, ih]
    rcases e with ⟨dp, n, sr⟩
    cases sr with
    | err => simp [fileStep]
    | nonreg => simp [fileStep]
    | reg sz =>
      have hstep : (fileStep root d k st (dp, n, StatRes.reg sz)).dir_sizes =
          bump st.dir_sizes (dir_bucket root dp d) sz := rfl
      rw [hstep, present_bump]
      constructor
      · intro h
        rcases h with h | ⟨e, he, hr, hk⟩
        · rcases h with h | h
          · exact Or.inl h
          · exact Or.inr ⟨(dp, n, .reg sz), List.mem_cons_self _ _, ⟨sz, rfl⟩, h⟩
        · exact Or.inr ⟨e, List.mem_cons.2 (Or.inr he), hr, hk⟩
      · intro h
        rcases h with h | ⟨e, he, hr, hk⟩
        · exact Or.inl (Or.inl h)
        · rcases List.mem_cons.1 he with rfl | he'
          · exact Or.inl (Or.inr hk)
          · exact Or.inr ⟨e, he', hr, hk⟩

/-- Two dicts that agree on defaults and on presence agree as maps. -/
theorem lookupVal_ext (m1 m2 : List (Path × Nat))
    (h1 : ∀ key, getD m1 key = getD m2 key)
    (h2 : ∀ key, (lookupVal m1 key).isSome ↔ (lookupVal m2 key).isSome) :
    ∀ key, lookupVal m1 key = lookupVal m2 key := by
  intro key
  cases ha : lookupVal m1 key with
  | none =>
    cases hb : lookupVal m2 key with
    | none => rfl
    | some b =>
      have h3 := h2 key
      rw [ha, hb] at h3
      simp at h3
  | some a =>
    cases hb : lookupVal m2 key with
    | none =>
      have h3 := h2 key
      rw [ha, hb] at h3
      simp at h3
    | some b =>
      have h4 := h1 key
      rw [getD, getD, ha, hb] at h4
      simp at h4
      rw [h4]

/-! ### C6 -/

/-- C6: the claim asserts two traversal orders of the same files give
the same set of top files; with a full heap and a size tie the earlier
arrival is kept, so swapping two equal-size siblings changes which
record survives. -/
theorem C6_cex :
    (visitedFiles [] ["r"] c6Tree1).Perm (visitedFiles [] ["r"] c6Tree2) ∧
    (scanDir ["r"] [] 0 1 ["r"] c6Tree1 ⟨[], [], 0⟩).top_files = [(5, ["r", "a"])] ∧
    (scanDir ["r"] [] 0 1 ["r"] c6Tree2 ⟨[], [], 0⟩).top_files = [(5, ["r", "b"])] ∧
    (5, (["r", "a"] : Path)) ∉ (scanDir ["r"] [] 0 1 ["r"] c6Tree2 ⟨[], [], 0⟩).top_files := by
  refine ⟨?_, by decide, by decide, by decide⟩
  have h1 : visitedFiles [] ["r"] c6Tree1 =
      [(["r"], "a", .reg 5), (["r"], "b", .reg 5)] := by decide
  have h2 : visitedFiles [] ["r"] c6Tree2 =
      [(["r"], "b", .reg 5), (["r"], "a", .reg 5)] := by decide
  rw [h1, h2]
  exact List.Perm.swap _ _ _

/-- C6 amended: for two trees whose pruned walks process the same file
events in any two orders, the walk returns the same total_bytes,
dir_sizes equal as maps, and top_files with the same multiset of sizes;
which record is kept among equal-size ties may depend on the traversal
order. -/
theorem C6_thm (rt : Path) (excl : List Path) (d k : Nat) (t1 t2 : FsDir)
    (hperm : (visitedFiles excl rt t1).Perm (visitedFiles excl rt t2)) :
    (scanDir rt excl d k rt t1 ⟨[], [], 0⟩).total_bytes =
      (scanDir rt excl d k rt t2 ⟨[], [], 0⟩).total_bytes ∧
    (∀ key, lookupVal (scanDir rt excl d k rt t1 ⟨[], [], 0⟩).dir_sizes key =
      lookupVal (scanDir rt excl d k rt t2 ⟨[], [], 0⟩).dir_sizes key) ∧
    (sizesOf (scanDir rt excl d k rt t1 ⟨[], [], 0⟩).top_files).Perm
      (sizesOf (scanDir rt excl d k rt t2 ⟨[], [], 0⟩).top_files) := by
  refine ⟨?_, ?_, ?_⟩
  · rw [scanDir_total, scanDir_total]
    unfold totalOf
    rw [(hperm.map entSize).sum_eq]
  · refine lookupVal_ext _ _ ?_ ?_
    · intro key
      rw [scanDir_getD, scanDir_getD]
      unfold bucketSum
      rw [(hperm.map (entBucketSize rt d key)).sum_eq]
    · intro key
      rw [scanDir_visits, scanDir_visits, scanVisits_present, scanVisits_present]
      constructor
      · rintro (h | ⟨e, he, hr, hk⟩)
        · exact Or.inl h
        · exact Or.inr ⟨e, hperm.mem_iff.1 he, hr, hk⟩
      · rintro (h | ⟨e, he, hr, hk⟩)
        · exact Or.inl h
        · exact Or.inr ⟨e, hperm.mem_iff.2 he, hr, hk⟩
  · rw [scanDir_visits, scanDir_visits, scanVisits_top, scanVisits_top]
    exact offerFold_sizes k _ _ (hperm.filterMap _)

/-- Witness for C6 at the two-sibling trees with swapped listing order. -/
theorem C6_wit :
    (visitedFiles [] ["r"] c6Tree1).Perm (visitedFiles [] ["r"] c6Tree2) ∧
    ((scanDir ["r"] [] 0 1 ["r"] c6Tree1 ⟨[], [], 0⟩).total_bytes =
        (scanDir ["r"] [] 0 1 ["r"] c6Tree2 ⟨[], [], 0⟩).total_bytes ∧
      (∀ key, lookupVal (scanDir ["r"] [] 0 1 ["r"] c6Tree1 ⟨[], [], 0⟩).dir_sizes key =
        lookupVal (scanDir ["r"] [] 0 1 ["r"] c6Tree2 ⟨[], [], 0⟩).dir_sizes key) ∧
      (sizesOf (scanDir ["r"] [] 0 1 ["r"] c6Tree1 ⟨[], [], 0⟩).top_files).Perm
        (sizesOf (scanDir ["r"] [] 0 1 ["r"] c6Tree2 ⟨[], [], 0⟩).top_files)) := by
  have hperm : (visitedFiles [] ["r"] c6Tree1).Perm (visitedFiles [] ["r"] c6Tree2) := by
    have h1 : visitedFiles [] ["r"] c6Tree1 =
        [(["r"], "a", .reg 5), (["r"], "b", .reg 5)] := by decide
    have h2 : visitedFiles [] ["r"] c6Tree2 =
        [(["r"], "b", .reg 5), (["r"], "a", .reg 5)] := by decide
    rw [h1, h2]
    exact List.Perm.swap _ _ _
  exact ⟨hperm, C6_thm ["r"] [] 0 1 c6Tree1 c6Tree2 hperm⟩

end DiskUsage
